import Mathlib

/-!
Verification of the core physics engine of the `solar_rust` N-body simulator.

The Rust source operates on `f64` values (`glam::DVec3` vectors); this
development embeds the same operations in exact real arithmetic, which is the
reading the specification itself uses for its algebraic statements.  Machine
indices (`usize`) are embedded as `Nat`.  Every definition mirrors one Rust
function; the originating file and function are named in each doc comment.
-/

namespace SolarRust

/-- Model of `glam::DVec3`: a 3-vector of (exact) reals. -/
structure Vec3 where
  x : ℝ
  y : ℝ
  z : ℝ

namespace Vec3

/-- Componentwise addition (`DVec3 + DVec3`). -/
def add (a b : Vec3) : Vec3 := ⟨a.x + b.x, a.y + b.y, a.z + b.z⟩

/-- Componentwise subtraction (`DVec3 - DVec3`). -/
def sub (a b : Vec3) : Vec3 := ⟨a.x - b.x, a.y - b.y, a.z - b.z⟩

/-- Scalar multiplication (`f64 * DVec3`). -/
def smul (s : ℝ) (a : Vec3) : Vec3 := ⟨s * a.x, s * a.y, s * a.z⟩

/-- Scalar division (`DVec3 / f64`). -/
noncomputable def divScalar (a : Vec3) (s : ℝ) : Vec3 := ⟨a.x / s, a.y / s, a.z / s⟩

/-- The zero vector (`DVec3::ZERO`). -/
def zero : Vec3 := ⟨0, 0, 0⟩

instance : Add Vec3 := ⟨add⟩
instance : Sub Vec3 := ⟨sub⟩
instance : Zero Vec3 := ⟨zero⟩
instance : SMul ℝ Vec3 := ⟨smul⟩
instance : Inhabited Vec3 := ⟨zero⟩

/-- Dot product (`DVec3::dot`). -/
def dot (a b : Vec3) : ℝ := a.x * b.x + a.y * b.y + a.z * b.z

/-- Squared Euclidean length (`DVec3::length_squared`). -/
def lengthSq (a : Vec3) : ℝ := a.x * a.x + a.y * a.y + a.z * a.z

/-- Euclidean length (`DVec3::length`). -/
noncomputable def length (a : Vec3) : ℝ := Real.sqrt a.lengthSq

theorem add_def (a b : Vec3) : a + b = ⟨a.x + b.x, a.y + b.y, a.z + b.z⟩ := rfl

theorem sub_def (a b : Vec3) : a - b = ⟨a.x - b.x, a.y - b.y, a.z - b.z⟩ := rfl

theorem smul_def (s : ℝ) (a : Vec3) : s • a = ⟨s * a.x, s * a.y, s * a.z⟩ := rfl

theorem zero_def : (0 : Vec3) = ⟨0, 0, 0⟩ := rfl

theorem lengthSq_nonneg (a : Vec3) : 0 ≤ a.lengthSq := by
  have hx := mul_self_nonneg a.x
  have hy := mul_self_nonneg a.y
  have hz := mul_self_nonneg a.z
  unfold lengthSq; linarith

theorem length_nonneg (a : Vec3) : 0 ≤ a.length := Real.sqrt_nonneg _

theorem length_eq_zero_iff (a : Vec3) : a.length = 0 ↔ a = 0 := by
  unfold length
  rw [Real.sqrt_eq_zero (lengthSq_nonneg a)]
  constructor
  · intro h
    have hx := mul_self_nonneg a.x
    have hy := mul_self_nonneg a.y
    have hz := mul_self_nonneg a.z
    unfold lengthSq at h
    have hx0 : a.x * a.x = 0 := by linarith
    have hy0 : a.y * a.y = 0 := by linarith
    have hz0 : a.z * a.z = 0 := by linarith
    have ex : a.x = 0 := by
      rcases mul_self_eq_zero.mp hx0 with h; exact h
    have ey : a.y = 0 := mul_self_eq_zero.mp hy0
    have ez : a.z = 0 := mul_self_eq_zero.mp hz0
    cases a
    simp_all [zero_def]
  · intro h; rw [h]; simp [zero_def, lengthSq]

end Vec3

/-- Model of `AstronomicalObject` (src/astronomy.rs).  The `uuid` field is an
opaque identity token, embedded as a natural number. -/
structure Body where
  name : String
  mass : ℝ
  position : Vec3
  velocity : Vec3
  acceleration : Vec3
  radius : ℝ
  magnification : ℝ
  color : Nat × Nat × Nat
  uuid : Nat

instance : Inhabited Body :=
  ⟨⟨"", 0, 0, 0, 0, 0, 0, (0, 0, 0), 0⟩⟩

/-- Gravitational constant `G` (src/integration.rs line 7). -/
noncomputable def G : ℝ := 6.6743e-11

/-! ### The lexicographic upper-triangular pair grid

Both force kernels and the work partitioner iterate over the ordered pairs
`(i, j)` with `i < j < n` using the nested loops
`for i in 0..n-1 { for j in i+1..n { ... } }`; `pairsLex n` is that
iteration order as a list. -/

/-- The list of pairs `(i, j)`, `i < j < n`, in the nested-loop
(lexicographic) order used throughout src/integration.rs and src/engine.rs.
For `n = 0` the Rust bound `n - 1` underflows the unsigned index type; the
release-mode loop then runs its inner range empty and contributes no pairs,
which truncated subtraction models directly. -/
def pairsLex (n : Nat) : List (Nat × Nat) :=
  (List.range (n - 1)).flatMap fun i =>
    (List.range' (i + 1) (n - (i + 1))).map fun j => (i, j)

/-- Strict lexicographic order on index pairs. -/
def lexLt (p q : Nat × Nat) : Prop :=
  p.1 < q.1 ∨ (p.1 = q.1 ∧ p.2 < q.2)

/-- Reflexive lexicographic order on index pairs. -/
def lexLe (p q : Nat × Nat) : Prop :=
  p.1 < q.1 ∨ (p.1 = q.1 ∧ p.2 ≤ q.2)

instance (p q : Nat × Nat) : Decidable (lexLt p q) := by
  unfold lexLt; infer_instance

instance (p q : Nat × Nat) : Decidable (lexLe p q) := by
  unfold lexLe; infer_instance

theorem lexLt_irrefl (p : Nat × Nat) : ¬ lexLt p p := by
  unfold lexLt; omega

theorem lexLt_asymm {p q : Nat × Nat} (h : lexLt p q) : ¬ lexLt q p := by
  unfold lexLt at *; omega

theorem lexLe_of_lexLt {p q : Nat × Nat} (h : lexLt p q) : lexLe p q := by
  unfold lexLt at h; unfold lexLe; omega

theorem lexLe_refl (p : Nat × Nat) : lexLe p p := by
  unfold lexLe; omega

theorem lexLt_or_eq_of_lexLe {p q : Nat × Nat} (h : lexLe p q) :
    lexLt p q ∨ p = q := by
  unfold lexLe at h
  unfold lexLt
  rcases p with ⟨a, b⟩; rcases q with ⟨c, d⟩
  simp only [Prod.mk.injEq]
  omega

theorem not_lexLe_of_lexLt {p q : Nat × Nat} (h : lexLt p q) : ¬ lexLe q p := by
  unfold lexLt at h; unfold lexLe; omega

theorem lexLt_trans {p q r : Nat × Nat} (h₁ : lexLt p q) (h₂ : lexLt q r) :
    lexLt p r := by
  unfold lexLt at *; omega

/-- Membership in the pair grid: exactly the pairs `i < j < n`. -/
theorem mem_pairsLex {n : Nat} {p : Nat × Nat} :
    p ∈ pairsLex n ↔ p.1 < p.2 ∧ p.2 < n := by
  rcases p with ⟨i, j⟩
  unfold pairsLex
  simp only [List.mem_flatMap, List.mem_map, List.mem_range, List.mem_range',
    Prod.mk.injEq]
  constructor
  · rintro ⟨a, ha, b, ⟨k, hk, hb⟩, he, he2⟩
    omega
  · rintro ⟨hij, hjn⟩
    exact ⟨i, by omega, ⟨j, ⟨j - (i + 1), by omega⟩, rfl, rfl⟩⟩

/-- Auxiliary: summing `g i + 1` over a list. -/
theorem sum_map_add_one (l : List Nat) (g : Nat → Nat) :
    (l.map fun i => g i + 1).sum = (l.map g).sum + l.length := by
  induction l with
  | nil => simp
  | cons a t ih => simp [ih]; omega

/-- Auxiliary Gauss sum for the triangular count. -/
theorem sum_desc_mul_two :
    ∀ m : Nat, ((List.range m).map fun i => m - i).sum * 2 = m * (m + 1)
  | 0 => by simp
  | (m + 1) => by
    have step : ((List.range m).map fun i => (m + 1) - i).sum
        = ((List.range m).map fun i => m - i).sum + m := by
      have congr1 : ((List.range m).map fun i => (m + 1) - i)
          = (List.range m).map fun i => (m - i) + 1 := by
        apply List.map_congr_left
        intro i hi
        rw [List.mem_range] at hi
        omega
      rw [congr1, sum_map_add_one, List.length_range]
    rw [List.range_succ, List.map_append, List.sum_append]
    simp only [List.map_cons, List.map_nil, List.sum_cons, List.sum_nil]
    rw [step]
    have ih := sum_desc_mul_two m
    have expand : (m + 1) * (m + 1 + 1) = m * (m + 1) + 2 * m + 2 := by ring
    omega

/-- The pair grid has the triangular-number length. -/
theorem length_pairsLex (n : Nat) : (pairsLex n).length = n * (n - 1) / 2 := by
  unfold pairsLex
  rw [List.length_flatMap]
  simp only [Function.comp_def]
  cases n with
  | zero => simp
  | succ m =>
    have comp : ((List.range (m + 1 - 1)).map fun i =>
        (((List.range' (i + 1) (m + 1 - (i + 1))).map fun j => (i, j)).length))
        = (List.range m).map fun i => m - i := by
      simp only [Nat.add_sub_cancel]
      apply List.map_congr_left
      intro i hi
      rw [List.mem_range] at hi
      rw [List.length_map, List.length_range']
      omega
    rw [comp]
    have gauss := sum_desc_mul_two m
    have expand : (m + 1) * (m + 1 - 1) = m * (m + 1) := by
      simp only [Nat.add_sub_cancel]; ring
    omega

/-- The pair grid is strictly sorted in lexicographic order. -/
theorem pairwise_lexLt_pairsLex (n : Nat) : (pairsLex n).Pairwise lexLt := by
  unfold pairsLex
  rw [List.pairwise_flatMap]
  constructor
  · intro i hi
    rw [List.pairwise_map]
    have hp : (List.range' (i + 1) (n - (i + 1))).Pairwise (· < ·) :=
      List.pairwise_lt_range' _ _ 1 Nat.one_pos
    apply hp.imp
    intro a b hab
    exact Or.inr ⟨rfl, hab⟩
  · have hp : (List.range (n - 1)).Pairwise (· < ·) := List.pairwise_lt_range _
    apply hp.imp
    intro a b hab
    intro x hx y hy
    rw [List.mem_map] at hx hy
    rcases hx with ⟨j, hj, rfl⟩
    rcases hy with ⟨k, hk, rfl⟩
    exact Or.inl hab

/-- The pair grid has no duplicates. -/
theorem nodup_pairsLex (n : Nat) : (pairsLex n).Nodup :=
  (pairwise_lexLt_pairsLex n).imp fun h => by
    intro he; subst he; exact lexLt_irrefl _ h

/-! ### The work partitioner (src/engine.rs, `get_mt_splices`)

The Rust function builds the lexicographic pair list, then for each of
`max_threads = min(pair_count, num_threads)` rounds removes a bucket from the
**tail** of the remaining list (`split_off(len - num)`) and records the
bucket's first and last pair as an inclusive fence.  `bucketSize` is the `num`
computed in round `i`; `mtBucketsGo` is the loop, returning the buckets
themselves; `get_mt_splices` reduces each bucket to its `(start, end)` fence
(`first().unwrap()` / `last().unwrap()` modelled by `head?`/`getLast?` with a
junk default — nonemptiness of every bucket is proved below). -/

/-- Bucket size `num` for round `i`: `len / max + (1 if i < len % max else 0)`
(src/engine.rs lines 364–365). -/
def bucketSize (len max i : Nat) : Nat :=
  len / max + (if i < len % max then 1 else 0)

/-- The partitioning loop of `get_mt_splices` (src/engine.rs lines 363–371):
round `i` takes the last `bucketSize len max i` elements of the remaining
list.  The loop counter is embedded by the number `k` of rounds still to run,
so the current round index is `i = max - k` and the rounds execute for
`i = 0, 1, …, max - 1` exactly as in the Rust `for` loop. -/
def mtBucketsGo (len max : Nat) : Nat → List (Nat × Nat) →
    List (List (Nat × Nat))
  | 0, _ => []
  | k + 1, rem =>
    (rem.drop (rem.length - bucketSize len max (max - (k + 1)))) ::
      mtBucketsGo len max k
        (rem.take (rem.length - bucketSize len max (max - (k + 1))))

/-- Model of `Engine::get_mt_splices` (src/engine.rs lines 347–380), returning
the inclusive pair-fences `(start, end)` in the order the Rust function
returns them. -/
def get_mt_splices (num_bodies num_threads : Nat) :
    List ((Nat × Nat) × (Nat × Nat)) :=
  if num_bodies < 2 then []
  else
    let combinations := pairsLex num_bodies
    let len := combinations.length
    let max_threads := min len num_threads
    (mtBucketsGo len max_threads max_threads combinations).map fun b =>
      (b.head?.getD (0, 0), b.getLast?.getD (0, 0))

/-- The slice of the pair grid selected by an inclusive fence `(s, e)`: all
pairs of the grid lying lexicographically between `s` and `e`.  This is
exactly the set of pairs the force kernel `symplectic_mt`
(src/integration.rs lines 131–170) visits for that fence. -/
def fenceSlice (n : Nat) (f : (Nat × Nat) × (Nat × Nat)) : List (Nat × Nat) :=
  (pairsLex n).filter fun p => decide (lexLe f.1 p) && decide (lexLe p f.2)

/-- Number of pairs still unassigned before round `i` of the partition loop. -/
def remCount (len max i : Nat) : Nat :=
  (max - i) * (len / max) + (len % max - i)

theorem remCount_zero {len max : Nat} (h : 0 < max) :
    remCount len max 0 = len := by
  unfold remCount
  simp only [Nat.sub_zero]
  have := Nat.div_add_mod len max
  have hlt : len % max < max := Nat.mod_lt _ h
  nlinarith [Nat.div_add_mod len max]

theorem remCount_succ {len max i : Nat} (h : i < max) :
    remCount len max i = bucketSize len max i + remCount len max (i + 1) := by
  unfold remCount bucketSize
  have hsplit : (max - i) * (len / max)
      = len / max + (max - (i + 1)) * (len / max) := by
    have he : max - i = 1 + (max - (i + 1)) := by omega
    rw [he]; ring
  rw [hsplit]
  by_cases hc : i < len % max <;> simp [hc] <;> omega

theorem remCount_last {len max : Nat} (h : len % max < max) :
    remCount len max max = 0 := by
  unfold remCount
  simp only [Nat.sub_self, Nat.zero_mul, Nat.zero_add]
  omega

theorem bucketSize_pos {len max i : Nat} (hmax : 0 < max) (hlen : max ≤ len) :
    0 < bucketSize len max i := by
  unfold bucketSize
  have hq : 1 ≤ len / max := (Nat.one_le_div_iff hmax).mpr hlen
  rcases Nat.lt_or_ge i (len % max) with hc | hc
  · simp [hc]
  · simp only [Nat.not_lt.mpr hc, if_false]
    omega

/-- Full specification of the partition loop: the buckets, reversed and
concatenated, restore the remaining list; there are `max - i` of them; each
is nonempty of size `len / max` or `len / max + 1`. -/
theorem mtBucketsGo_spec (len max : Nat) (hmax : 0 < max) (hlen : max ≤ len) :
    ∀ (k : Nat) (rem : List (Nat × Nat)), k ≤ max →
      rem.length = remCount len max (max - k) →
      ((mtBucketsGo len max k rem).reverse.flatten = rem ∧
       (mtBucketsGo len max k rem).length = k ∧
       ∀ b ∈ mtBucketsGo len max k rem,
         b ≠ [] ∧ (b.length = len / max ∨ b.length = len / max + 1)) := by
  intro k
  induction k with
  | zero =>
    intro rem hk hrem
    have hz : remCount len max (max - 0) = 0 := by
      have hltm : len % max < max := Nat.mod_lt _ hmax
      unfold remCount
      simp only [Nat.sub_zero, Nat.sub_self, Nat.zero_mul, Nat.zero_add]
      omega
    rw [hz] at hrem
    have : rem = [] := List.length_eq_zero.mp hrem
    simp [mtBucketsGo, this]
  | succ k ih =>
    intro rem hk hrem
    have hlt : max - (k + 1) < max := by omega
    have hi_succ : max - (k + 1) + 1 = max - k := by omega
    have hstep := @remCount_succ len max (max - (k + 1)) hlt
    rw [hi_succ] at hstep
    have hnum_le : bucketSize len max (max - (k + 1)) ≤ rem.length := by omega
    have htake_len :
        (rem.take (rem.length - bucketSize len max (max - (k + 1)))).length
          = remCount len max (max - k) := by
      rw [List.length_take]
      omega
    obtain ⟨ihflat, ihlen, ihmem⟩ :=
      ih (rem.take (rem.length - bucketSize len max (max - (k + 1))))
        (by omega) htake_len
    rw [mtBucketsGo]
    refine ⟨?_, ?_, ?_⟩
    · rw [List.reverse_cons, List.flatten_append, ihflat]
      simp [List.take_append_drop]
    · simp only [List.length_cons, ihlen]
    · intro b hb
      rcases List.mem_cons.mp hb with hb | hb
      · subst hb
        have hdrop_len :
            (rem.drop (rem.length - bucketSize len max (max - (k + 1)))).length
              = bucketSize len max (max - (k + 1)) := by
          rw [List.length_drop]
          omega
        constructor
        · intro hnil
          rw [hnil] at hdrop_len
          have := @bucketSize_pos len max (max - (k + 1)) hmax hlen
          simp at hdrop_len
          omega
        · rw [hdrop_len]
          unfold bucketSize
          by_cases hc : max - (k + 1) < len % max <;> simp [hc]
      · exact ihmem b hb

theorem head_lexLe_of_pairwise {b : List (Nat × Nat)}
    (hb : b.Pairwise lexLt) (hne : b ≠ []) :
    ∀ x ∈ b, lexLe (b.head hne) x := by
  cases b with
  | nil => exact absurd rfl hne
  | cons a t =>
    intro x hx
    rcases List.mem_cons.mp hx with rfl | hx
    · exact lexLe_refl _
    · exact lexLe_of_lexLt ((List.pairwise_cons.mp hb).1 x hx)

theorem lexLe_getLast_of_pairwise :
    ∀ {b : List (Nat × Nat)}, b.Pairwise lexLt → ∀ (hne : b ≠ []),
      ∀ x ∈ b, lexLe x (b.getLast hne)
  | [] => by intro _ hne; exact absurd rfl hne
  | [a] => by
    intro _ hne x hx
    rcases List.mem_cons.mp hx with rfl | hx
    · exact lexLe_refl _
    · simp at hx
  | a :: c :: t => by
    intro hb hne x hx
    have htail : (c :: t).Pairwise lexLt := (List.pairwise_cons.mp hb).2
    have hcons : ∀ y ∈ c :: t, lexLt a y := (List.pairwise_cons.mp hb).1
    rw [List.getLast_cons (by simp)]
    rcases List.mem_cons.mp hx with rfl | hx
    · exact lexLe_of_lexLt (hcons _ (List.getLast_mem _))
    · exact lexLe_getLast_of_pairwise htail (by simp) x hx

/-- A nonempty contiguous segment of a strictly lex-sorted list is recovered
exactly by filtering the list through the segment's inclusive fence. -/
theorem filter_lex_between {L A C b : List (Nat × Nat)}
    (hs : L.Pairwise lexLt) (hd : L = A ++ (b ++ C)) (hne : b ≠ []) :
    (L.filter fun p =>
        decide (lexLe (b.head hne) p) && decide (lexLe p (b.getLast hne))) = b := by
  subst hd
  have h1 := List.pairwise_append.mp hs
  have h2 := List.pairwise_append.mp h1.2.1
  have hbp : b.Pairwise lexLt := h2.1
  have hcross_ab : ∀ x ∈ A, ∀ y ∈ b, lexLt x y := by
    intro x hx y hy
    exact h1.2.2 x hx y (List.mem_append_left _ hy)
  have hcross_bc : ∀ x ∈ b, ∀ y ∈ C, lexLt x y := h2.2.2
  have hhead := List.head_mem hne
  have hlast := List.getLast_mem hne
  rw [List.filter_append, List.filter_append]
  have hA : (A.filter fun p =>
      decide (lexLe (b.head hne) p) && decide (lexLe p (b.getLast hne))) = [] := by
    rw [List.filter_eq_nil_iff]
    intro a ha
    have hlt : lexLt a (b.head hne) := hcross_ab a ha _ hhead
    simp only [Bool.and_eq_true, decide_eq_true_eq, not_and]
    intro hcon
    exact absurd hcon (not_lexLe_of_lexLt hlt)
  have hC : (C.filter fun p =>
      decide (lexLe (b.head hne) p) && decide (lexLe p (b.getLast hne))) = [] := by
    rw [List.filter_eq_nil_iff]
    intro c hc
    have hlt : lexLt (b.getLast hne) c := hcross_bc _ hlast c hc
    simp only [Bool.and_eq_true, decide_eq_true_eq, not_and]
    intro _ hcon
    exact absurd hcon (not_lexLe_of_lexLt hlt)
  have hB : (b.filter fun p =>
      decide (lexLe (b.head hne) p) && decide (lexLe p (b.getLast hne))) = b := by
    rw [List.filter_eq_self]
    intro x hx
    simp only [Bool.and_eq_true, decide_eq_true_eq]
    exact ⟨head_lexLe_of_pairwise hbp hne x hx,
      lexLe_getLast_of_pairwise hbp hne x hx⟩
  rw [hA, hB, hC]
  simp

theorem get_mt_splices_eq (n T : Nat) (hn : ¬ n < 2) :
    get_mt_splices n T =
      (mtBucketsGo (pairsLex n).length (min (pairsLex n).length T)
          (min (pairsLex n).length T) (pairsLex n)).map fun b =>
        (b.head?.getD (0, 0), b.getLast?.getD (0, 0)) := by
  unfold get_mt_splices
  rw [if_neg hn]

theorem fenceSlice_of_bucket {n : Nat} {buckets : List (List (Nat × Nat))}
    (hflat : buckets.reverse.flatten = pairsLex n)
    {b : List (Nat × Nat)} (hb : b ∈ buckets) (hne : b ≠ []) :
    fenceSlice n (b.head?.getD (0, 0), b.getLast?.getD (0, 0)) = b := by
  obtain ⟨X, Y, hXY⟩ := List.append_of_mem hb
  have hdecomp : pairsLex n = Y.reverse.flatten ++ (b ++ X.reverse.flatten) := by
    rw [← hflat, hXY]
    simp [List.reverse_append, List.flatten_append, List.reverse_cons]
  have hhead : b.head?.getD (0, 0) = b.head hne := by
    rw [List.head?_eq_head hne]; rfl
  have hlast : b.getLast?.getD (0, 0) = b.getLast hne := by
    rw [List.getLast?_eq_getLast b hne]; rfl
  unfold fenceSlice
  rw [hhead, hlast]
  exact filter_lex_between (pairwise_lexLt_pairsLex n) hdecomp hne

/-- C3: for every `N ≥ 2` and `1 ≤ T ≤ N(N−1)/2` the partitioner
`get_mt_splices` returns `min(T, N(N−1)/2)` pair-fences whose slices of the
lexicographic pair grid are pairwise disjoint, together cover exactly the
pairs `(i, j)` with `i < j < N`, and have sizes differing by at most one. -/
theorem get_mt_splices_covers (n T : Nat) (hn : 2 ≤ n) (hT1 : 1 ≤ T)
    (hT2 : T ≤ n * (n - 1) / 2) :
    (get_mt_splices n T).length = min T (n * (n - 1) / 2) ∧
    ((get_mt_splices n T).map (fenceSlice n)).Pairwise
      (fun s t => ∀ p ∈ s, p ∉ t) ∧
    (∀ p : Nat × Nat,
      (∃ s ∈ (get_mt_splices n T).map (fenceSlice n), p ∈ s) ↔
        p.1 < p.2 ∧ p.2 < n) ∧
    (∀ s ∈ (get_mt_splices n T).map (fenceSlice n),
     ∀ t ∈ (get_mt_splices n T).map (fenceSlice n),
      s.length ≤ t.length + 1) := by
  have hlen_eq : (pairsLex n).length = n * (n - 1) / 2 := length_pairsLex n
  have hlen_pos : 1 ≤ (pairsLex n).length := by
    have h2 : n ≤ n * (n - 1) := Nat.le_mul_of_pos_right n (by omega)
    omega
  have hmax_pos : 0 < min (pairsLex n).length T := by omega
  have hmax_le : min (pairsLex n).length T ≤ (pairsLex n).length :=
    Nat.min_le_left _ _
  obtain ⟨hflat, hblen, hbmem⟩ :=
    mtBucketsGo_spec (pairsLex n).length (min (pairsLex n).length T)
      hmax_pos hmax_le (min (pairsLex n).length T) (pairsLex n) le_rfl
      (by rw [Nat.sub_self, remCount_zero hmax_pos])
  have hmapslice :
      ((mtBucketsGo (pairsLex n).length (min (pairsLex n).length T)
          (min (pairsLex n).length T) (pairsLex n)).map fun b =>
            (b.head?.getD (0, 0), b.getLast?.getD (0, 0))).map (fenceSlice n)
        = mtBucketsGo (pairsLex n).length (min (pairsLex n).length T)
            (min (pairsLex n).length T) (pairsLex n) := by
    rw [List.map_map]
    have hpt : ∀ b ∈ mtBucketsGo (pairsLex n).length
        (min (pairsLex n).length T) (min (pairsLex n).length T) (pairsLex n),
        (fenceSlice n ∘ fun b => (b.head?.getD (0, 0), b.getLast?.getD (0, 0))) b
          = id b := by
      intro b hb
      exact fenceSlice_of_bucket hflat hb (hbmem b hb).1
    rw [List.map_congr_left hpt, List.map_id]
  rw [get_mt_splices_eq n T (by omega), hmapslice]
  refine ⟨?_, ?_, ?_, ?_⟩
  · rw [List.length_map, hblen, ← hlen_eq, Nat.min_comm]
  · have hnodup : (mtBucketsGo (pairsLex n).length (min (pairsLex n).length T)
        (min (pairsLex n).length T) (pairsLex n)).reverse.flatten.Nodup := by
      rw [hflat]; exact nodup_pairsLex n
    rw [List.nodup_flatten] at hnodup
    have hdisj := hnodup.2
    rw [List.pairwise_reverse] at hdisj
    refine hdisj.imp ?_
    intro s t h p hp hpt
    exact h hpt hp
  · intro p
    have hmemflat :
        (∃ s ∈ mtBucketsGo (pairsLex n).length (min (pairsLex n).length T)
            (min (pairsLex n).length T) (pairsLex n), p ∈ s) ↔
          p ∈ (mtBucketsGo (pairsLex n).length (min (pairsLex n).length T)
            (min (pairsLex n).length T) (pairsLex n)).reverse.flatten := by
      simp [List.mem_flatten, List.mem_reverse]
    rw [hmemflat, hflat, mem_pairsLex]
  · intro s hs t ht
    rcases (hbmem s hs).2 with h1 | h1 <;> rcases (hbmem t ht).2 with h2 | h2 <;>
      omega

/-- C4 counterexample: for `N = 6`, `T = 3`, concatenating the returned
slices in the order they are returned does not give the lexicographic pair
list (the partitioner assigns buckets from the tail of the list). -/
theorem get_mt_splices_6_3_concat_ne :
    ((get_mt_splices 6 3).map (fenceSlice 6)).flatten ≠ pairsLex 6 := by
  decide

/-- C4 (amended): for `N = 6`, `T = 3` the partitioner returns exactly 3
slices of 5 pairs each, and their concatenation in **reverse** return order
equals the lexicographic pair list. -/
theorem get_mt_splices_6_3_spec :
    (get_mt_splices 6 3).length = 3 ∧
    (∀ s ∈ (get_mt_splices 6 3).map (fenceSlice 6), s.length = 5) ∧
    ((get_mt_splices 6 3).map (fenceSlice 6)).reverse.flatten = pairsLex 6 := by
  decide

/-! ### The collision resolver (src/integration.rs, `collide_objects`)

`collide_objects` picks the heavier body `h` of the pair (ties resolved in
favor of the first index, line 201), folds the lighter body `l` into it by
four successive field writes, prints a message, and removes `l`.  The field
writes are modelled by `mergedBody`; note that the radius write (line 214)
reads `obs[h].mass` **after** the mass write (line 213), so its scale factor
divides `total_mass` by the already-incremented mass. -/

open Classical in
/-- The `(h, l)` index pair of `collide_objects` (src/integration.rs
lines 201–205): `h` is the index of the body with the not-smaller mass,
with ties going to `first`. -/
noncomputable def heavyLight (obs : List Body) (first second : Nat) :
    Nat × Nat :=
  if (obs.getD first default).mass ≥ (obs.getD second default).mass then
    (first, second)
  else (second, first)

/-- The surviving body built by the field writes of `collide_objects`
(src/integration.rs lines 207–214), in program order: velocity, position,
mass, then radius — the radius write reading the already-updated mass. -/
noncomputable def mergedBody (obs : List Body) (first second : Nat) : Body :=
  let h := (heavyLight obs first second).1
  let l := (heavyLight obs first second).2
  let bh := obs.getD h default
  let bl := obs.getD l default
  let total_mass := bh.mass + bl.mass
  let newVelocity :=
    (bh.mass • bh.velocity + bl.mass • bl.velocity).divScalar total_mass
  let newPosition :=
    bh.position + (bl.mass / total_mass) • (bl.position - bh.position)
  let newMass := bh.mass + bl.mass
  let newRadius := bh.radius * (total_mass / newMass) ^ ((3 : ℝ)⁻¹)
  { bh with
    velocity := newVelocity
    position := newPosition
    mass := newMass
    radius := newRadius }

/-- Model of `collide_objects` (src/integration.rs lines 196–218): write the
merged fields into slot `h`, then remove slot `l`. -/
noncomputable def collide_objects (obs : List Body) (pq : Nat × Nat) :
    List Body :=
  (obs.set (heavyLight obs pq.1 pq.2).1 (mergedBody obs pq.1 pq.2)).eraseIdx
    (heavyLight obs pq.1 pq.2).2

theorem heavyLight_cases (obs : List Body) (p q : Nat) :
    heavyLight obs p q = (p, q) ∨ heavyLight obs p q = (q, p) := by
  unfold heavyLight
  by_cases h : (obs.getD p default).mass ≥ (obs.getD q default).mass
  · rw [if_pos h]; exact Or.inl rfl
  · rw [if_neg h]; exact Or.inr rfl

theorem mergedBody_radius_aux (obs : List Body) (p q : Nat)
    (hmp : 0 < (obs.getD p default).mass)
    (hmq : 0 < (obs.getD q default).mass) :
    (mergedBody obs p q).radius
      = (obs.getD (heavyLight obs p q).1 default).radius := by
  have htot : 0 < (obs.getD (heavyLight obs p q).1 default).mass
      + (obs.getD (heavyLight obs p q).2 default).mass := by
    rcases heavyLight_cases obs p q with h | h <;> rw [h] <;> dsimp only <;>
      linarith
  unfold mergedBody
  simp only
  rw [div_self (by linarith), Real.one_rpow, mul_one]

/-- C1 (amended): the radius scale factor of the collision resolver is
evaluated with the heavy mass already incremented, so it equals
`(total_mass/total_mass)^(1/3) = 1` and the surviving body keeps the heavy
body's radius unchanged. -/
theorem mergedBody_radius_unchanged (obs : List Body) (p q : Nat)
    (hmp : 0 < (obs.getD p default).mass)
    (hmq : 0 < (obs.getD q default).mass) :
    (mergedBody obs p q).radius
      = (obs.getD (heavyLight obs p q).1 default).radius :=
  mergedBody_radius_aux obs p q hmp hmq

/-- S2 test bodies of the specification (mass `1·10²⁴`, radius `1·10⁶` and
mass `1·10²²`, radius `1·10⁵`). -/
noncomputable def bodyS2A : Body :=
  { name := "A", mass := 1e24, position := ⟨0, 0, 0⟩, velocity := ⟨0, 0, 0⟩,
    acceleration := ⟨0, 0, 0⟩, radius := 1e6, magnification := 1,
    color := (0, 0, 0), uuid := 0 }

noncomputable def bodyS2B : Body :=
  { name := "B", mass := 1e22, position := ⟨1.01e6, 0, 0⟩,
    velocity := ⟨-1e5, 0, 0⟩, acceleration := ⟨0, 0, 0⟩, radius := 1e5,
    magnification := 1, color := (0, 0, 0), uuid := 1 }

/-- C1 counterexample: merging the S2 bodies leaves the surviving radius at
`1·10⁶`, not at the claimed `1·10⁶ · (1.01)^(1/3)`. -/
theorem mergedBody_radius_counterexample :
    (mergedBody [bodyS2A, bodyS2B] 0 1).radius = 1e6 ∧
    (1e6 : ℝ) ≠ 1e6 * (1.01 : ℝ) ^ ((3 : ℝ)⁻¹) := by
  constructor
  · have h := mergedBody_radius_aux [bodyS2A, bodyS2B] 0 1
      (by simp [bodyS2A]; norm_num) (by simp [bodyS2B]; norm_num)
    rw [h]
    have hhl : heavyLight [bodyS2A, bodyS2B] 0 1 = (0, 1) := by
      unfold heavyLight
      rw [if_pos]
      simp [bodyS2A, bodyS2B]
      norm_num
    rw [hhl]
    simp [bodyS2A]
  · have hlt : (1 : ℝ) < (1.01 : ℝ) ^ ((3 : ℝ)⁻¹) := by
      rw [Real.one_lt_rpow_iff_of_pos (by norm_num)]
      left
      constructor <;> norm_num
    intro hcon
    nlinarith

/-- C1 (amended) witness at the S2 inputs. -/
theorem mergedBody_radius_unchanged_witness :
    0 < ([bodyS2A, bodyS2B].getD 0 default).mass ∧
    0 < ([bodyS2A, bodyS2B].getD 1 default).mass ∧
    (mergedBody [bodyS2A, bodyS2B] 0 1).radius
      = ([bodyS2A, bodyS2B].getD
          (heavyLight [bodyS2A, bodyS2B] 0 1).1 default).radius :=
  ⟨by simp [bodyS2A]; norm_num, by simp [bodyS2B]; norm_num,
    mergedBody_radius_unchanged [bodyS2A, bodyS2B] 0 1
      (by simp [bodyS2A]; norm_num) (by simp [bodyS2B]; norm_num)⟩

theorem getD_eq_of_lt {α : Type} (l : List α) (d : α) {n : Nat}
    (h : n < l.length) : l.getD n d = l[n] := by
  rw [List.getD_eq_getElem?_getD, List.getElem?_eq_getElem h]
  rfl

theorem vec3_add_comm (a b : Vec3) : a + b = b + a := by
  cases a; cases b
  simp only [Vec3.add_def, Vec3.mk.injEq]
  refine ⟨?_, ?_, ?_⟩ <;> ring

theorem smul_divScalar (s : ℝ) (hs : s ≠ 0) (w : Vec3) :
    s • (w.divScalar s) = w := by
  cases w with
  | mk x y z =>
    show Vec3.smul s (Vec3.divScalar ⟨x, y, z⟩ s) = ⟨x, y, z⟩
    unfold Vec3.smul Vec3.divScalar
    simp only [Vec3.mk.injEq]
    refine ⟨?_, ?_, ?_⟩ <;> field_simp

/-- C2: a merge conserves linear momentum exactly (in exact arithmetic) and
removes exactly one body: the survivor's mass times its velocity equals the
sum of the two pre-merge momenta. -/
theorem collide_objects_momentum (obs : List Body) (p q : Nat)
    (hp : p < obs.length) (hq : q < obs.length) (_hpq : p ≠ q)
    (hmp : 0 < (obs.getD p default).mass)
    (hmq : 0 < (obs.getD q default).mass) :
    (mergedBody obs p q).mass • (mergedBody obs p q).velocity
      = (obs.getD p default).mass • (obs.getD p default).velocity
        + (obs.getD q default).mass • (obs.getD q default).velocity ∧
    (collide_objects obs (p, q)).length = obs.length - 1 := by
  constructor
  · have hkey : ∀ a b : Nat, heavyLight obs p q = (a, b) →
        0 < (obs.getD a default).mass → 0 < (obs.getD b default).mass →
        (mergedBody obs p q).mass • (mergedBody obs p q).velocity
          = (obs.getD a default).mass • (obs.getD a default).velocity
            + (obs.getD b default).mass • (obs.getD b default).velocity := by
      intro a b hab hma hmb
      unfold mergedBody
      simp only [hab]
      exact smul_divScalar _ (by linarith) _
    rcases heavyLight_cases obs p q with h | h
    · exact hkey p q h hmp hmq
    · rw [hkey q p h hmq hmp]
      exact vec3_add_comm _ _
  · unfold collide_objects
    have hl2 : (heavyLight obs p q).2
        < (obs.set (heavyLight obs p q).1 (mergedBody obs p q)).length := by
      rw [List.length_set]
      rcases heavyLight_cases obs p q with h | h <;> rw [h] <;> dsimp only <;>
        assumption
    rw [List.length_eraseIdx_of_lt hl2, List.length_set]

/-- C2 witness at the S2 inputs. -/
theorem collide_objects_momentum_witness :
    (0 : Nat) < 2 ∧ (1 : Nat) < 2 ∧ (0 : Nat) ≠ 1 ∧
    ((mergedBody [bodyS2A, bodyS2B] 0 1).mass •
        (mergedBody [bodyS2A, bodyS2B] 0 1).velocity
      = ([bodyS2A, bodyS2B].getD 0 default).mass •
          ([bodyS2A, bodyS2B].getD 0 default).velocity
        + ([bodyS2A, bodyS2B].getD 1 default).mass •
            ([bodyS2A, bodyS2B].getD 1 default).velocity ∧
      (collide_objects [bodyS2A, bodyS2B] (0, 1)).length = 2 - 1) :=
  ⟨by decide, by decide, by decide,
    collide_objects_momentum [bodyS2A, bodyS2B] 0 1 (by simp) (by simp)
      (by decide) (by simp [bodyS2A]; norm_num) (by simp [bodyS2B]; norm_num)⟩

/-- C9: on an exact mass tie, `collide_objects` treats the first index of the
pair as the heavy one — the survivor sits in the first slot, keeps the first
body's id, the second slot is removed, and the count drops by one. -/
theorem collide_objects_equal_mass (obs : List Body) (p q : Nat)
    (hp : p < obs.length) (hq : q < obs.length) (hpq : p ≠ q)
    (hm : (obs.getD p default).mass = (obs.getD q default).mass) :
    heavyLight obs p q = (p, q) ∧
    (mergedBody obs p q).uuid = (obs.getD p default).uuid ∧
    collide_objects obs (p, q)
      = (obs.set p (mergedBody obs p q)).eraseIdx q ∧
    (collide_objects obs (p, q)).getD (if q < p then p - 1 else p) default
      = mergedBody obs p q ∧
    (collide_objects obs (p, q)).length = obs.length - 1 := by
  have hhl : heavyLight obs p q = (p, q) := by
    unfold heavyLight
    rw [if_pos (ge_of_eq hm)]
  have hrw : collide_objects obs (p, q)
      = (obs.set p (mergedBody obs p q)).eraseIdx q := by
    unfold collide_objects
    dsimp only
    rw [hhl]
  have hlen : (collide_objects obs (p, q)).length = obs.length - 1 := by
    rw [hrw, List.length_eraseIdx_of_lt (by rw [List.length_set]; exact hq),
      List.length_set]
  refine ⟨hhl, ?_, hrw, ?_, hlen⟩
  · unfold mergedBody
    rw [hhl]
  · rw [hrw]
    by_cases hqp : q < p
    · rw [if_pos hqp]
      have hlen' : ((obs.set p (mergedBody obs p q)).eraseIdx q).length
          = obs.length - 1 := by
        rw [List.length_eraseIdx_of_lt (by rw [List.length_set]; exact hq),
          List.length_set]
      have hb : p - 1 < ((obs.set p (mergedBody obs p q)).eraseIdx q).length := by
        omega
      rw [getD_eq_of_lt _ _ hb,
        List.getElem_eraseIdx_of_ge _ _ _ hb (by omega)]
      have hpe : p - 1 + 1 = p := by omega
      simp only [hpe]
      exact List.getElem_set_self _
    · have hpq2 : p < q := by omega
      rw [if_neg hqp]
      have hb : p < ((obs.set p (mergedBody obs p q)).eraseIdx q).length := by
        rw [List.length_eraseIdx_of_lt (by rw [List.length_set]; exact hq),
          List.length_set]
        omega
      rw [getD_eq_of_lt _ _ hb,
        List.getElem_eraseIdx_of_lt _ _ _ hb hpq2]
      exact List.getElem_set_self _

/-! ### The force kernel (src/integration.rs, `symplectic`)

`symplectic` walks the pair grid in lexicographic order, aborting with the
offending pair on the first collision test that fires, otherwise
accumulating the two symmetric gravitational contributions of each pair into
a per-body acceleration vector. -/

/-- The collision test of the force kernels (src/integration.rs lines
180–183): center distance at most the radius sum (the comparison is the
source's `<=`). -/
noncomputable def collPair (obs : List Body) (p : Nat × Nat) : Prop :=
  ((obs.getD p.2 default).position - (obs.getD p.1 default).position).length
    ≤ (obs.getD p.1 default).radius + (obs.getD p.2 default).radius

open Classical in
/-- The pair loop of `symplectic` (src/integration.rs lines 176–191) over an
explicit pair list, threading the acceleration accumulator. -/
noncomputable def symGo (obs : List Body) :
    List (Nat × Nat) → List Vec3 → Except (Nat × Nat) (List Vec3)
  | [], acc => .ok acc
  | p :: rest, acc =>
    if collPair obs p then .error p
    else
      let a := obs.getD p.1 default
      let b := obs.getD p.2 default
      let difference := b.position - a.position
      let grav_mult := G / difference.length ^ (3 : ℕ)
      let acc1 := acc.set p.1
        (acc.getD p.1 0 + (grav_mult * b.mass) • difference)
      let acc2 := acc1.set p.2
        (acc1.getD p.2 0 + ((-grav_mult) * a.mass) • difference)
      symGo obs rest acc2

/-- Model of `symplectic` (src/integration.rs lines 172–194).  The nested
loops `for first in 0..len-1 { for second in first+1..len { … } }` are the
lexicographic pair grid `pairsLex`; the accumulator starts as
`vec![DVec3::ZERO; num_bodies]`. -/
noncomputable def symplectic (obs : List Body) : Except (Nat × Nat) (List Vec3) :=
  symGo obs (pairsLex obs.length) (List.replicate obs.length 0)

theorem symGo_ok_no_coll (obs : List Body) :
    ∀ (l : List (Nat × Nat)) (acc v : List Vec3),
      symGo obs l acc = .ok v → ∀ q ∈ l, ¬ collPair obs q := by
  intro l
  induction l with
  | nil => simp
  | cons p rest ih =>
    intro acc v hok q hq
    rw [symGo] at hok
    by_cases hc : collPair obs p
    · rw [if_pos hc] at hok
      exact Except.noConfusion hok
    · rw [if_neg hc] at hok
      rcases List.mem_cons.mp hq with rfl | hq
      · exact hc
      · exact ih _ _ hok q hq

theorem symGo_error_iff (obs : List Body) :
    ∀ (l : List (Nat × Nat)), l.Pairwise lexLt →
      ∀ (acc : List Vec3) (p : Nat × Nat),
        symGo obs l acc = .error p ↔
          (p ∈ l ∧ collPair obs p ∧
           ∀ q ∈ l, lexLt q p → ¬ collPair obs q) := by
  intro l
  induction l with
  | nil =>
    intro _ acc p
    simp [symGo]
  | cons q0 rest ih =>
    intro hpw acc p
    obtain ⟨hq0, hrest⟩ := List.pairwise_cons.mp hpw
    rw [symGo]
    by_cases hc : collPair obs q0
    · rw [if_pos hc]
      constructor
      · intro he
        have hpe : p = q0 := by
          have := Except.error.inj he
          exact this.symm
        subst hpe
        refine ⟨List.mem_cons_self _ _, hc, ?_⟩
        intro q hq hlt
        rcases List.mem_cons.mp hq with rfl | hq'
        · exact absurd hlt (lexLt_irrefl _)
        · exact absurd hlt (lexLt_asymm (hq0 q hq'))
      · rintro ⟨hp, hcp, hall⟩
        rcases List.mem_cons.mp hp with rfl | hp'
        · rfl
        · exact absurd hc (hall q0 (List.mem_cons_self _ _) (hq0 p hp'))
    · rw [if_neg hc]
      rw [ih hrest _ p]
      constructor
      · rintro ⟨hp, hcp, hall⟩
        refine ⟨List.mem_cons_of_mem _ hp, hcp, ?_⟩
        intro q hq hlt
        rcases List.mem_cons.mp hq with rfl | hq'
        · exact hc
        · exact hall q hq' hlt
      · rintro ⟨hp, hcp, hall⟩
        rcases List.mem_cons.mp hp with rfl | hp'
        · exact absurd hcp hc
        · exact ⟨hp', hcp, fun q hq hlt =>
            hall q (List.mem_cons_of_mem _ hq) hlt⟩

theorem symplectic_small_aux (obs : List Body) (h : obs.length < 2) :
    pairsLex obs.length = [] ∧
    symplectic obs = .ok (List.replicate obs.length (0 : Vec3)) := by
  have h01 : obs.length = 0 ∨ obs.length = 1 := by omega
  have hpl : pairsLex obs.length = [] := by
    rcases h01 with h0 | h1
    · rw [h0]; rfl
    · rw [h1]; rfl
  refine ⟨hpl, ?_⟩
  unfold symplectic
  rw [hpl, symGo]

/-- C5 (amended): with fewer than two bodies the force kernel visits no pair
and returns the all-zero acceleration vector of length `N` — which is
zero-length only in the `N = 0` case. -/
theorem symplectic_small (obs : List Body) (h : obs.length < 2) :
    pairsLex obs.length = [] ∧
    symplectic obs = .ok (List.replicate obs.length (0 : Vec3)) :=
  symplectic_small_aux obs h

/-- Body used for small concrete force-kernel inputs. -/
noncomputable def bodyT1 : Body :=
  { name := "T1", mass := 1, position := ⟨0, 0, 0⟩, velocity := ⟨0, 0, 0⟩,
    acceleration := ⟨0, 0, 0⟩, radius := 1, magnification := 1,
    color := (0, 0, 0), uuid := 0 }

/-- C5 counterexample: for a single body the result is the one-element list
`[0]` — a length-1 result, not a zero-length one. -/
theorem symplectic_single_not_empty :
    ([bodyT1] : List Body).length < 2 ∧
    symplectic [bodyT1] = .ok [(0 : Vec3)] ∧
    ¬ (([(0 : Vec3)] : List Vec3).length = 0) := by
  refine ⟨by simp, ?_, by simp⟩
  have h := (symplectic_small_aux [bodyT1] (by simp)).2
  simpa using h

/-- C5 (amended) witness at the empty and singleton inputs. -/
theorem symplectic_small_witness :
    ([bodyT1] : List Body).length < 2 ∧
    (pairsLex ([bodyT1] : List Body).length = [] ∧
     symplectic [bodyT1]
       = .ok (List.replicate ([bodyT1] : List Body).length (0 : Vec3))) :=
  ⟨by simp, symplectic_small [bodyT1] (by simp)⟩

/-- C6: for `N ≥ 2` bodies the force kernel returns the failure value
`(i, j)` exactly when `(i, j)` is a colliding pair (center distance at most
radius sum, inclusively) that is lexicographically first among colliding
pairs; moreover a failure value exists exactly when some pair collides. -/
theorem symplectic_error_spec (obs : List Body) (_h2 : 2 ≤ obs.length)
    (p : Nat × Nat) :
    (symplectic obs = .error p ↔
      (p.1 < p.2 ∧ p.2 < obs.length ∧ collPair obs p ∧
       ∀ q : Nat × Nat, q.1 < q.2 → q.2 < obs.length → lexLt q p →
         ¬ collPair obs q)) ∧
    ((∃ r, symplectic obs = .error r) ↔
      ∃ q : Nat × Nat, q.1 < q.2 ∧ q.2 < obs.length ∧ collPair obs q) := by
  constructor
  · unfold symplectic
    rw [symGo_error_iff obs (pairsLex obs.length)
      (pairwise_lexLt_pairsLex obs.length) _ p]
    constructor
    · rintro ⟨hp, hcp, hall⟩
      obtain ⟨h1, h2'⟩ := mem_pairsLex.mp hp
      exact ⟨h1, h2', hcp, fun q hq1 hq2 hlt =>
        hall q (mem_pairsLex.mpr ⟨hq1, hq2⟩) hlt⟩
    · rintro ⟨h1, h2', hcp, hall⟩
      exact ⟨mem_pairsLex.mpr ⟨h1, h2'⟩, hcp, fun q hq hlt =>
        hall q (mem_pairsLex.mp hq).1 (mem_pairsLex.mp hq).2 hlt⟩
  · constructor
    · rintro ⟨r, hr⟩
      have := (symGo_error_iff obs (pairsLex obs.length)
        (pairwise_lexLt_pairsLex obs.length) _ r).mp hr
      exact ⟨r, (mem_pairsLex.mp this.1).1, (mem_pairsLex.mp this.1).2,
        this.2.1⟩
    · rintro ⟨q, hq1, hq2, hcq⟩
      rcases he : symplectic obs with r | v
      · exact ⟨r, rfl⟩
      · exact absurd hcq (symGo_ok_no_coll obs (pairsLex obs.length) _ v he q
          (mem_pairsLex.mpr ⟨hq1, hq2⟩))

/-! ### The RK4 integrator (src/integration.rs, `runge_kutta_4`)

`runge_kutta_4` runs four stages.  In stage 0 the pair loop tests each pair
for collision at the current positions (`state == 0 && distance <= r_i+r_j`,
line 88) and returns the offending pair immediately — before any body has
been written to; stages 1–3 run the same pair loop **without** the
collision test.  Only after all four stages does the final loop write
positions, velocities, and cached accelerations.  Because the early return
discards the partially accumulated stage-0 accelerations, the stage-0 loop
is observably a collision scan over the pair grid in lexicographic order
(`findColl`) followed, when clean, by the acceleration accumulation
(`accelGo`). -/

/-- Intermediate per-body stage state of `runge_kutta_4`
(src/integration.rs lines 49–53). -/
structure IState where
  velocity : Vec3
  dv : Vec3

instance : Inhabited IState := ⟨⟨0, 0⟩⟩

open Classical in
/-- The stage-0 collision scan of `runge_kutta_4` (src/integration.rs
line 88): first colliding pair in lexicographic order, at current
positions. -/
noncomputable def findColl (obs : List Body) :
    List (Nat × Nat) → Option (Nat × Nat)
  | [] => none
  | p :: rest => if collPair obs p then some p else findColl obs rest

/-- The pairwise acceleration accumulation of one RK4 stage
(src/integration.rs lines 83–96, minus the stage-0 collision test), over
stage positions `positions`. -/
noncomputable def accelGo (obs : List Body) (positions : List Vec3) :
    List (Nat × Nat) → List Vec3 → List Vec3
  | [], dv => dv
  | p :: rest, dv =>
    let difference := positions.getD p.2 0 - positions.getD p.1 0
    let grav_modifier := G / difference.length ^ (3 : ℕ)
    let dv1 := dv.set p.1
      (dv.getD p.1 0 + (grav_modifier * (obs.getD p.2 default).mass) • difference)
    let dv2 := dv1.set p.2
      (dv1.getD p.2 0 + ((-grav_modifier) * (obs.getD p.1 default).mass) • difference)
    accelGo obs positions rest dv2

/-- All per-body accelerations of a stage. -/
noncomputable def accelVecs (obs : List Body) (positions : List Vec3) :
    List Vec3 :=
  accelGo obs positions (pairsLex obs.length)
    (List.replicate obs.length 0)

/-- One RK4 stage (src/integration.rs lines 69–109): stage 0 (`prev = none`)
uses current positions and velocities; later stages offset positions by
`dt·v` and velocities by `dt·dv` of the previous stage. -/
noncomputable def rk4Stage (obs : List Body) (prev : Option (List IState))
    (dt : ℝ) : List IState :=
  match prev with
  | none =>
    let dv := accelVecs obs (obs.map (·.position))
    (List.range obs.length).map fun i =>
      ⟨(obs.getD i default).velocity, dv.getD i 0⟩
  | some sp =>
    let positions := (List.range obs.length).map fun i =>
      (obs.getD i default).position + dt • (sp.getD i default).velocity
    let dv := accelVecs obs positions
    (List.range obs.length).map fun i =>
      ⟨(obs.getD i default).velocity + dt • (sp.getD i default).dv,
        dv.getD i 0⟩

/-- Model of `runge_kutta_4` (src/integration.rs lines 55–128): the returned
pair (first component) and the body list after the call (second component).
On a stage-0 collision the bodies are returned untouched. -/
noncomputable def runge_kutta_4 (obs : List Body) (time_step : ℝ) :
    Option (Nat × Nat) × List Body :=
  match findColl obs (pairsLex obs.length) with
  | some p => (some p, obs)
  | none =>
    let dt := 0.5 * time_step
    let s0 := rk4Stage obs none dt
    let s1 := rk4Stage obs (some s0) dt
    let s2 := rk4Stage obs (some s1) dt
    let s3 := rk4Stage obs (some s2) (dt + 0.5 * time_step)
    (none, (List.range obs.length).map fun i =>
      let body := obs.getD i default
      let dxdt := ((s0.getD i default).velocity
        + (2 : ℝ) • ((s1.getD i default).velocity + (s2.getD i default).velocity)
        + (s3.getD i default).velocity).divScalar 6
      let dvdt := ((s0.getD i default).dv
        + (2 : ℝ) • ((s1.getD i default).dv + (s2.getD i default).dv)
        + (s3.getD i default).dv).divScalar 6
      { body with
        position := body.position + time_step • dxdt
        velocity := body.velocity + time_step • dvdt
        acceleration := dvdt })

theorem findColl_none_iff (obs : List Body) :
    ∀ l : List (Nat × Nat),
      findColl obs l = none ↔ ∀ q ∈ l, ¬ collPair obs q := by
  intro l
  induction l with
  | nil => simp [findColl]
  | cons p rest ih =>
    rw [findColl]
    by_cases hc : collPair obs p
    · rw [if_pos hc]
      simp only [reduceCtorEq, false_iff, not_forall]
      exact ⟨p, List.mem_cons_self _ _, not_not_intro hc⟩
    · rw [if_neg hc, ih]
      constructor
      · intro hall q hq
        rcases List.mem_cons.mp hq with rfl | hq'
        · exact hc
        · exact hall q hq'
      · intro hall q hq
        exact hall q (List.mem_cons_of_mem _ hq)

theorem findColl_some_iff (obs : List Body) :
    ∀ l : List (Nat × Nat), l.Pairwise lexLt → ∀ p : Nat × Nat,
      findColl obs l = some p ↔
        (p ∈ l ∧ collPair obs p ∧
         ∀ q ∈ l, lexLt q p → ¬ collPair obs q) := by
  intro l
  induction l with
  | nil =>
    intro _ p
    simp [findColl]
  | cons q0 rest ih =>
    intro hpw p
    obtain ⟨hq0, hrest⟩ := List.pairwise_cons.mp hpw
    rw [findColl]
    by_cases hc : collPair obs q0
    · rw [if_pos hc]
      constructor
      · intro he
        have hpe : p = q0 := (Option.some.inj he).symm
        subst hpe
        refine ⟨List.mem_cons_self _ _, hc, ?_⟩
        intro q hq hlt
        rcases List.mem_cons.mp hq with rfl | hq'
        · exact absurd hlt (lexLt_irrefl _)
        · exact absurd hlt (lexLt_asymm (hq0 q hq'))
      · rintro ⟨hp, hcp, hall⟩
        rcases List.mem_cons.mp hp with rfl | hp'
        · rfl
        · exact absurd hc (hall q0 (List.mem_cons_self _ _) (hq0 p hp'))
    · rw [if_neg hc, ih hrest p]
      constructor
      · rintro ⟨hp, hcp, hall⟩
        refine ⟨List.mem_cons_of_mem _ hp, hcp, ?_⟩
        intro q hq hlt
        rcases List.mem_cons.mp hq with rfl | hq'
        · exact hc
        · exact hall q hq' hlt
      · rintro ⟨hp, hcp, hall⟩
        rcases List.mem_cons.mp hp with rfl | hp'
        · exact absurd hcp hc
        · exact ⟨hp', hcp, fun q hq hlt =>
            hall q (List.mem_cons_of_mem _ hq) hlt⟩

/-- C7: if `runge_kutta_4` reports a collided pair then the body list is
returned exactly as it was (no position, velocity, or acceleration has been
written), the pair collides at the current (stage-0) positions and is
lexicographically first among such pairs; and the report is `none` exactly
when no pair collides at the current positions — overlaps arising at the
later stage offsets never produce a report. -/
theorem rk4_collision_contract (obs : List Body) (ts : ℝ) (p : Nat × Nat) :
    ((runge_kutta_4 obs ts).1 = some p →
      ((runge_kutta_4 obs ts).2 = obs ∧
       p.1 < p.2 ∧ p.2 < obs.length ∧ collPair obs p ∧
       ∀ q : Nat × Nat, q.1 < q.2 → q.2 < obs.length → lexLt q p →
         ¬ collPair obs q)) ∧
    ((runge_kutta_4 obs ts).1 = none ↔
      ∀ q : Nat × Nat, q.1 < q.2 → q.2 < obs.length → ¬ collPair obs q) := by
  rcases hf : findColl obs (pairsLex obs.length) with _ | p0
  · have hr : runge_kutta_4 obs ts
        = (none, (runge_kutta_4 obs ts).2) := by
      unfold runge_kutta_4
      rw [hf]
    constructor
    · intro hsome
      rw [hr] at hsome
      exact Option.noConfusion hsome
    · rw [hr]
      simp only [true_iff]
      intro q hq1 hq2
      exact (findColl_none_iff obs _).mp hf q (mem_pairsLex.mpr ⟨hq1, hq2⟩)
  · have hspec := (findColl_some_iff obs (pairsLex obs.length)
      (pairwise_lexLt_pairsLex obs.length) p0).mp hf
    have hr : runge_kutta_4 obs ts = (some p0, obs) := by
      unfold runge_kutta_4
      rw [hf]
    rw [hr]
    constructor
    · intro hsome
      have hpe : p = p0 := (Option.some.inj hsome).symm
      subst hpe
      exact ⟨rfl, (mem_pairsLex.mp hspec.1).1, (mem_pairsLex.mp hspec.1).2,
        hspec.2.1, fun q hq1 hq2 hlt =>
          hspec.2.2 q (mem_pairsLex.mpr ⟨hq1, hq2⟩) hlt⟩
    · simp only [reduceCtorEq, false_iff, not_forall]
      exact ⟨p0, (mem_pairsLex.mp hspec.1).1,
        ⟨(mem_pairsLex.mp hspec.1).2, not_not_intro hspec.2.1⟩⟩

/-! ### The orbital-parent classifier (src/engine.rs, `find_orbital_parent`)

`find_orbital_parent` returns `None` for a child with zero-length cached
acceleration; otherwise it walks the body slice in order, skips the entry
that *is* the child (pointer equality, embedded here as the child's index in
the list), rejects a candidate whose direction deviates from the
acceleration direction (`1 − (Δ·â)/‖Δ‖ ≥ 0.1`, line 470) or whose implied
acceleration falls short (`1 − (G·m/‖Δ‖²)/‖a‖ ≥ 0.1`, line 475), and returns
the first surviving candidate.  `clamp_length(1.0, 1.0)` on the (nonzero)
acceleration is its normalization `‖a‖⁻¹ • a`. -/

/-- The angular acceptance test of `find_orbital_parent`
(src/engine.rs lines 467–472), in accepted (negated-reject) form. -/
noncomputable def angularTest (child other : Body) : Prop :=
  1 - ((other.position - child.position).dot
        ((child.acceleration.length)⁻¹ • child.acceleration))
      / (other.position - child.position).length < 0.1

/-- The magnitude acceptance test of `find_orbital_parent`
(src/engine.rs lines 474–477), in accepted (negated-reject) form. -/
noncomputable def magnitudeTest (child other : Body) : Prop :=
  1 - (G * other.mass / (other.position - child.position).lengthSq)
      / child.acceleration.length < 0.1

/-- A candidate passes when it survives both reject tests. -/
noncomputable def passesParent (child other : Body) : Prop :=
  angularTest child other ∧ magnitudeTest child other

open Classical in
/-- The candidate loop of `find_orbital_parent` (src/engine.rs lines
462–480) over the indexed body list, with the source's reject conditions
(`≥ 0.1` skips a candidate). -/
noncomputable def fopGo (child : Body) (childIdx : Nat) :
    List (Nat × Body) → Option Body
  | [] => none
  | (i, other) :: rest =>
    if i = childIdx then fopGo child childIdx rest
    else if 0.1 ≤ 1 - ((other.position - child.position).dot
          ((child.acceleration.length)⁻¹ • child.acceleration))
          / (other.position - child.position).length then
      fopGo child childIdx rest
    else if 0.1 ≤ 1 - (G * other.mass
          / (other.position - child.position).lengthSq)
          / child.acceleration.length then
      fopGo child childIdx rest
    else some other

open Classical in
/-- Model of `Engine::find_orbital_parent` (src/engine.rs lines 451–483).
The `std::ptr::eq(child, other)` skip is embedded as skipping the child's
own index `childIdx` in the list. -/
noncomputable def find_orbital_parent (child : Body) (childIdx : Nat)
    (objects : List Body) : Option Body :=
  if child.acceleration.length = 0 then none
  else fopGo child childIdx objects.enum

open Classical in
/-- Specification-side description of the classifier's search: the first
indexed entry other than the child that passes both acceptance tests. -/
noncomputable def firstPassingParent (child : Body) (childIdx : Nat)
    (objects : List Body) : Option Body :=
  (objects.enum.filter fun e =>
      decide (¬ e.1 = childIdx) && decide (passesParent child e.2)).head?.map
    (·.2)

open Classical in
theorem fopGo_eq_firstPasser (child : Body) (ci : Nat) :
    ∀ l : List (Nat × Body),
      fopGo child ci l
        = (l.filter fun e =>
            decide (¬ e.1 = ci) && decide (passesParent child e.2)).head?.map
            (·.2) := by
  intro l
  induction l with
  | nil => simp [fopGo]
  | cons e rest ih =>
    rcases e with ⟨i, other⟩
    rw [fopGo]
    rw [List.filter_cons]
    dsimp only
    by_cases hi : i = ci
    · have hno : ¬ ((decide (¬ i = ci) &&
          decide (passesParent child other)) = true) := by
        simp [hi]
      rw [if_pos hi, ih, if_neg hno]
    · by_cases hang : 0.1 ≤ 1 - ((other.position - child.position).dot
          ((child.acceleration.length)⁻¹ • child.acceleration))
          / (other.position - child.position).length
      · have hno : ¬ ((decide (¬ i = ci) &&
            decide (passesParent child other)) = true) := by
          simp only [Bool.and_eq_true, decide_eq_true_eq, not_and]
          intro _ hcon
          exact absurd hang (not_le.mpr hcon.1)
        rw [if_neg hi, if_pos hang, ih, if_neg hno]
      · by_cases hmag : 0.1 ≤ 1 - (G * other.mass
            / (other.position - child.position).lengthSq)
            / child.acceleration.length
        · have hno : ¬ ((decide (¬ i = ci) &&
              decide (passesParent child other)) = true) := by
            simp only [Bool.and_eq_true, decide_eq_true_eq, not_and]
            intro _ hcon
            exact absurd hmag (not_le.mpr hcon.2)
          rw [if_neg hi, if_neg hang, if_pos hmag, ih, if_neg hno]
        · have hyes : ((decide (¬ i = ci) &&
              decide (passesParent child other)) = true) := by
            simp only [Bool.and_eq_true, decide_eq_true_eq]
            exact ⟨hi, not_le.mp hang, not_le.mp hmag⟩
          rw [if_neg hi, if_neg hang, if_neg hmag, if_pos hyes]
          simp

/-- C8: the classifier returns `None` for a child with zero acceleration,
and otherwise returns the first body in list order — the child's own slot
excluded — passing both the angular and the magnitude test (or `None` when
no body passes). -/
theorem find_orbital_parent_spec (child : Body) (ci : Nat)
    (objects : List Body) :
    (child.acceleration = 0 → find_orbital_parent child ci objects = none) ∧
    (child.acceleration ≠ 0 →
      find_orbital_parent child ci objects
        = firstPassingParent child ci objects) := by
  constructor
  · intro hz
    unfold find_orbital_parent
    rw [if_pos ((Vec3.length_eq_zero_iff _).mpr hz)]
  · intro hnz
    unfold find_orbital_parent firstPassingParent
    rw [if_neg fun hc => hnz ((Vec3.length_eq_zero_iff _).mp hc)]
    exact fopGo_eq_firstPasser child ci objects.enum

/-- C10: the magnitude test is one-sided — any candidate whose implied
acceleration `G·m/‖Δ‖²` is at least the observed magnitude passes it, no
matter how large the overshoot. -/
theorem magnitudeTest_one_sided (child other : Body)
    (hpos : 0 < child.acceleration.length)
    (hge : child.acceleration.length
      ≤ G * other.mass / (other.position - child.position).lengthSq) :
    magnitudeTest child other := by
  unfold magnitudeTest
  have hone : (1 : ℝ) ≤ (G * other.mass
      / (other.position - child.position).lengthSq)
      / child.acceleration.length := (one_le_div hpos).mpr hge
  linarith

/-! ### Concrete instantiations of the hypothesised theorems -/

/-- Second body for concrete force-kernel inputs: center distance 1 from
`bodyT1`, radii summing to 2, so the pair `(0, 1)` collides. -/
noncomputable def bodyT2 : Body :=
  { name := "T2", mass := 1, position := ⟨1, 0, 0⟩, velocity := ⟨0, 0, 0⟩,
    acceleration := ⟨0, 0, 0⟩, radius := 1, magnification := 1,
    color := (0, 0, 0), uuid := 1 }

/-- Child body with unit acceleration along the x-axis. -/
noncomputable def bodyP : Body :=
  { name := "P", mass := 1, position := ⟨0, 0, 0⟩, velocity := ⟨0, 0, 0⟩,
    acceleration := ⟨1, 0, 0⟩, radius := 1, magnification := 1,
    color := (0, 0, 0), uuid := 2 }

/-- Massive candidate parent at unit distance from `bodyP`. -/
noncomputable def bodyQ : Body :=
  { name := "Q", mass := 1e12, position := ⟨1, 0, 0⟩, velocity := ⟨0, 0, 0⟩,
    acceleration := ⟨0, 0, 0⟩, radius := 1, magnification := 1,
    color := (0, 0, 0), uuid := 3 }

/-- Equal-mass test bodies for the tie-break rule. -/
noncomputable def bodyE1 : Body :=
  { name := "E1", mass := 5, position := ⟨0, 0, 0⟩, velocity := ⟨0, 0, 0⟩,
    acceleration := ⟨0, 0, 0⟩, radius := 1, magnification := 1,
    color := (0, 0, 0), uuid := 10 }

noncomputable def bodyE2 : Body :=
  { name := "E2", mass := 5, position := ⟨10, 0, 0⟩, velocity := ⟨0, 0, 0⟩,
    acceleration := ⟨0, 0, 0⟩, radius := 1, magnification := 1,
    color := (0, 0, 0), uuid := 11 }

theorem collPair_T1_T2 : collPair [bodyT1, bodyT2] (0, 1) := by
  unfold collPair bodyT1 bodyT2
  norm_num [Vec3.sub_def, Vec3.length, Vec3.lengthSq, Real.sqrt_one]

/-- C3 witness at `N = 6`, `T = 3`. -/
theorem get_mt_splices_covers_witness :
    ((2 : Nat) ≤ 6 ∧ (1 : Nat) ≤ 3 ∧ (3 : Nat) ≤ 6 * (6 - 1) / 2) ∧
    ((get_mt_splices 6 3).length = min 3 (6 * (6 - 1) / 2) ∧
     ((get_mt_splices 6 3).map (fenceSlice 6)).Pairwise
       (fun s t => ∀ p ∈ s, p ∉ t) ∧
     (∀ p : Nat × Nat,
       (∃ s ∈ (get_mt_splices 6 3).map (fenceSlice 6), p ∈ s) ↔
         p.1 < p.2 ∧ p.2 < 6) ∧
     (∀ s ∈ (get_mt_splices 6 3).map (fenceSlice 6),
      ∀ t ∈ (get_mt_splices 6 3).map (fenceSlice 6),
       s.length ≤ t.length + 1)) :=
  ⟨⟨by norm_num, by norm_num, by norm_num⟩,
    get_mt_splices_covers 6 3 (by norm_num) (by norm_num) (by norm_num)⟩

/-- C6 witness at a two-body input with an exactly-colliding pair. -/
theorem symplectic_error_spec_witness :
    2 ≤ ([bodyT1, bodyT2] : List Body).length ∧
    ((symplectic [bodyT1, bodyT2] = .error (0, 1) ↔
      ((0, 1).1 < (0, 1).2 ∧ (0, 1).2 < ([bodyT1, bodyT2] : List Body).length ∧
       collPair [bodyT1, bodyT2] (0, 1) ∧
       ∀ q : Nat × Nat, q.1 < q.2 →
         q.2 < ([bodyT1, bodyT2] : List Body).length → lexLt q (0, 1) →
         ¬ collPair [bodyT1, bodyT2] q)) ∧
     ((∃ r, symplectic [bodyT1, bodyT2] = .error r) ↔
       ∃ q : Nat × Nat, q.1 < q.2 ∧
         q.2 < ([bodyT1, bodyT2] : List Body).length ∧
         collPair [bodyT1, bodyT2] q)) :=
  ⟨by simp, symplectic_error_spec [bodyT1, bodyT2] (by simp) (0, 1)⟩

/-- C7 witness: `runge_kutta_4` on the overlapping two-body input reports
the pair `(0, 1)`, and the contract applies to it. -/
theorem rk4_collision_contract_witness :
    (runge_kutta_4 [bodyT1, bodyT2] 1).1 = some (0, 1) ∧
    (((runge_kutta_4 [bodyT1, bodyT2] 1).1 = some (0, 1) →
      ((runge_kutta_4 [bodyT1, bodyT2] 1).2 = [bodyT1, bodyT2] ∧
       (0, 1).1 < (0, 1).2 ∧
       (0, 1).2 < ([bodyT1, bodyT2] : List Body).length ∧
       collPair [bodyT1, bodyT2] (0, 1) ∧
       ∀ q : Nat × Nat, q.1 < q.2 →
         q.2 < ([bodyT1, bodyT2] : List Body).length → lexLt q (0, 1) →
         ¬ collPair [bodyT1, bodyT2] q)) ∧
     ((runge_kutta_4 [bodyT1, bodyT2] 1).1 = none ↔
       ∀ q : Nat × Nat, q.1 < q.2 →
         q.2 < ([bodyT1, bodyT2] : List Body).length →
         ¬ collPair [bodyT1, bodyT2] q)) := by
  have hfc : findColl [bodyT1, bodyT2]
      (pairsLex ([bodyT1, bodyT2] : List Body).length) = some (0, 1) := by
    rw [show pairsLex ([bodyT1, bodyT2] : List Body).length = [(0, 1)] from
      rfl, findColl, if_pos collPair_T1_T2]
  have h1 : (runge_kutta_4 [bodyT1, bodyT2] 1).1 = some (0, 1) := by
    unfold runge_kutta_4
    rw [hfc]
  exact ⟨h1, rk4_collision_contract [bodyT1, bodyT2] 1 (0, 1)⟩

/-- C8 witness at a child with nonzero acceleration. -/
theorem find_orbital_parent_spec_witness :
    bodyP.acceleration ≠ 0 ∧
    ((bodyP.acceleration = 0 →
      find_orbital_parent bodyP 0 [bodyP, bodyQ] = none) ∧
     (bodyP.acceleration ≠ 0 →
      find_orbital_parent bodyP 0 [bodyP, bodyQ]
        = firstPassingParent bodyP 0 [bodyP, bodyQ])) :=
  ⟨by simp [bodyP, Vec3.zero_def, Vec3.mk.injEq],
    find_orbital_parent_spec bodyP 0 [bodyP, bodyQ]⟩

/-- C9 witness at two equal-mass bodies. -/
theorem collide_objects_equal_mass_witness :
    ((0 : Nat) < 2 ∧ (1 : Nat) < 2 ∧ (0 : Nat) ≠ 1 ∧
     ([bodyE1, bodyE2].getD 0 default).mass
       = ([bodyE1, bodyE2].getD 1 default).mass) ∧
    (heavyLight [bodyE1, bodyE2] 0 1 = (0, 1) ∧
     (mergedBody [bodyE1, bodyE2] 0 1).uuid
       = ([bodyE1, bodyE2].getD 0 default).uuid ∧
     collide_objects [bodyE1, bodyE2] (0, 1)
       = ([bodyE1, bodyE2].set 0 (mergedBody [bodyE1, bodyE2] 0 1)).eraseIdx 1 ∧
     (collide_objects [bodyE1, bodyE2] (0, 1)).getD
         (if 1 < 0 then 0 - 1 else 0) default
       = mergedBody [bodyE1, bodyE2] 0 1 ∧
     (collide_objects [bodyE1, bodyE2] (0, 1)).length = 2 - 1) :=
  ⟨⟨by decide, by decide, by decide, by simp [bodyE1, bodyE2]⟩,
    collide_objects_equal_mass [bodyE1, bodyE2] 0 1 (by simp) (by simp)
      (by decide) (by simp [bodyE1, bodyE2])⟩

/-- C10 witness: the candidate overshoots the observed magnitude by eleven
orders of magnitude and still passes the magnitude test. -/
theorem magnitudeTest_one_sided_witness :
    0 < bodyP.acceleration.length ∧
    bodyP.acceleration.length
      ≤ G * bodyQ.mass / (bodyQ.position - bodyP.position).lengthSq ∧
    magnitudeTest bodyP bodyQ := by
  have hpos : 0 < bodyP.acceleration.length := by
    unfold bodyP
    norm_num [Vec3.length, Vec3.lengthSq, Real.sqrt_one]
  have hge : bodyP.acceleration.length
      ≤ G * bodyQ.mass / (bodyQ.position - bodyP.position).lengthSq := by
    unfold bodyP bodyQ G
    norm_num [Vec3.length, Vec3.lengthSq, Vec3.sub_def, Real.sqrt_one]
  exact ⟨hpos, hge, magnitudeTest_one_sided bodyP bodyQ hpos hge⟩

end SolarRust
